import Mathlib

/-!
Shallow embedding of the rate limiter in `src/utils/rate_limiter.py`
(class `RateLimiter`): the sliding-window admission check with its
Redis-backed shared-store path and its in-memory fallback path, the
size-triggered cleanup pass, and the IP lock primitives.

Modelling conventions:
* Python `time.time()` values and window/limit parameters are modelled as
  `Int` (all claims use whole-second inputs; `int()` on an integral value
  is the identity, and Python integer arithmetic is exact).
* Python dicts keyed by strings are modelled as association lists
  (first entry with the key wins, updates rewrite in place, new keys are
  appended — matching dict insertion-order semantics).
* A Python run that raises an uncaught exception (e.g. `IndexError` on
  `self.attempts[identifier][0]` with an empty list) is modelled by
  `Option`: `none` means the call raises instead of returning a dict.
* The Redis sorted set under one key is modelled as a sorted list of
  integer scores.  Members are `str(current_time)`, so two calls with an
  identical timestamp produce the same member and `ZADD` merely updates
  its score — modelled by deduplicating insertion (`zaddSingle`).
  `pipe.expire(key, window + 10)` only sets a TTL and is not modelled;
  no claim depends on it.
* Whether the Redis operation succeeds on a given call is an explicit
  input `redisUp`; `redisUp = false` models the `except Exception` branch
  (shared store unreachable / operation raising), in which the code sets
  `self.use_redis = False` and falls through to the memory path.
-/

namespace RateLimiter

/-- An association map from string keys, modelling a Python dict. -/
abbrev AttemptsMap := List (String × List Int)

/-- First-match lookup in an association list (Python `d[k]` / `k in d`). -/
def lookupA {α : Type} : List (String × α) → String → Option α
  | [], _ => none
  | p :: rest, k => if p.1 = k then some p.2 else lookupA rest k

/-- In-place update of the first entry with the key; appends when absent
(Python `d[k] = v` under dict insertion-order semantics). -/
def updateA {α : Type} : List (String × α) → String → α → List (String × α)
  | [], k, v => [(k, v)]
  | p :: rest, k, v => if p.1 = k then (k, v) :: rest else p :: updateA rest k v

/-- Removal of the entry with the key (Python `del d[k]`). -/
def removeA {α : Type} : List (String × α) → String → List (String × α)
  | [], _ => []
  | p :: rest, k => if p.1 = k then rest else p :: removeA rest k

/-- The window stored for an identifier, defaulting to the empty list
(`defaultdict(list)` read). -/
def getW (m : AttemptsMap) (k : String) : List Int :=
  (lookupA m k).getD []

/-- Lines 85–86: `if identifier not in self.attempts: self.attempts[identifier] = []`. -/
def ensureKey (m : AttemptsMap) (k : String) : AttemptsMap :=
  match lookupA m k with
  | some _ => m
  | none => m ++ [(k, [])]

/-- Lines 89–92: keep only timestamps with `current_time - t < window`. -/
def prune (l : List Int) (now window : Int) : List Int :=
  l.filter (fun t => decide (now - t < window))

/-- `RateLimiter._cleanup_old_entries` (lines 127–141): for every identifier
keep only attempts from the last hour and drop identifiers left empty. -/
def cleanupOldEntries (m : AttemptsMap) (now : Int) : AttemptsMap :=
  (m.map (fun p => (p.1, prune p.2 now 3600))).filter (fun p => !p.2.isEmpty)

/-- The dict returned by `check_rate_limit`.  `message` is present exactly
on the denial dicts. -/
structure Decision where
  allowed : Bool
  remaining : Int
  limit : Int
  reset : Int
  retry_after : Int
  message : Option String
  deriving DecidableEq

/-- The f-string `"Rate limit exceeded. Try again in {retry_after} seconds."`. -/
def denialMessage (retryAfter : Int) : String :=
  "Rate limit exceeded. Try again in " ++ toString retryAfter ++ " seconds."

/-- The memory-based fallback path of `RateLimiter.check_rate_limit`
(lines 84–125).  Note that this path stores attempts under `identifier`
alone — the action-qualified `key` from `_get_key` is not used here.
`none` models the uncaught `IndexError` raised at line 96 when the deny
branch is taken with an empty pruned list (possible only for `limit <= 0`). -/
def checkMem (attempts : AttemptsMap) (identifier : String)
    (limit window now : Int) : Option (Decision × AttemptsMap) :=
  let m1 := ensureKey attempts identifier
  let pruned := prune (getW m1 identifier) now window
  let m2 := updateA m1 identifier pruned
  if limit ≤ (pruned.length : Int) then
    match pruned with
    | [] => none
    | oldest :: _ =>
      let resetTime := oldest + window
      let retryAfter := resetTime - now
      some ({ allowed := false, remaining := 0, limit := limit, reset := resetTime,
              retry_after := retryAfter, message := some (denialMessage retryAfter) }, m2)
  else
    let m3 := updateA m2 identifier (pruned ++ [now])
    let m4 := if 1000 < m3.length then cleanupOldEntries m3 now else m3
    let cur := getW m4 identifier
    let remaining := max 0 (limit - (cur.length : Int))
    let resetTime :=
      match cur with
      | [] => now + window
      | t0 :: _ => t0 + window
    some ({ allowed := true, remaining := remaining, limit := limit, reset := resetTime,
            retry_after := 0, message := none }, m4)

/-- `ZREMRANGEBYSCORE key lo hi`: remove members whose score `s` satisfies
`lo ≤ s ≤ hi`. -/
def zremrangebyscore (z : List Int) (lo hi : Int) : List Int :=
  z.filter (fun s => !(decide (lo ≤ s ∧ s ≤ hi)))

/-- `ZADD key {str(now): now}`: insert the score in order; an existing
member with the same timestamp only has its score updated, so the set is
unchanged. -/
def zaddSingle : List Int → Int → List Int
  | [], x => [x]
  | y :: rest, x =>
    if x = y then y :: rest
    else if x < y then x :: y :: rest
    else y :: zaddSingle rest x

/-- The Redis path of `RateLimiter.check_rate_limit` (lines 37–78) acting
on the sorted set stored under one key: prune by score, add the current
timestamp, read the whole range back and compare its size to the limit. -/
def checkRedis (z : List Int) (limit window now : Int) : Option (Decision × List Int) :=
  let z1 := zremrangebyscore z 0 (now - window)
  let z2 := zaddSingle z1 now
  let requestCount := (z2.length : Int)
  if limit < requestCount then
    match z2 with
    | [] => none
    | oldest :: _ =>
      let resetTime := oldest + window
      let retryAfter := resetTime - now
      some ({ allowed := false, remaining := 0, limit := limit, reset := resetTime,
              retry_after := retryAfter, message := some (denialMessage retryAfter) }, z2)
  else
    let remaining := max 0 (limit - requestCount)
    let resetTime :=
      match z2 with
      | [] => now + window
      | t0 :: _ => t0 + window
    some ({ allowed := true, remaining := remaining, limit := limit, reset := resetTime,
            retry_after := 0, message := none }, z2)

/-- `RateLimiter._get_key` (lines 25–27). -/
def getKey (identifier action : String) : String :=
  "rl:" ++ action ++ ":" ++ identifier

/-- The mutable state of a `RateLimiter` instance: `self.attempts`,
the contents of the shared Redis store (key → sorted set of scores), and
`self.use_redis`. -/
structure RLState where
  attempts : AttemptsMap
  redis : List (String × List Int)
  use_redis : Bool
  deriving DecidableEq

/-- The outcome of one `check_rate_limit` call: the returned dict, the
state after the call, and which backend produced the decision
(`usedRedis = true` exactly when the Redis pipeline succeeded). -/
structure CheckResult where
  decision : Decision
  state : RLState
  usedRedis : Bool
  deriving DecidableEq

/-- `RateLimiter.check_rate_limit` (lines 29–125).  `redisUp` tells whether
the Redis pipeline succeeds on this call; when it raises, line 82 sets
`self.use_redis = False` and control falls through to the memory path.
`none` models an uncaught exception reaching the caller. -/
def check_rate_limit (s : RLState) (redisUp : Bool) (identifier action : String)
    (limit window now : Int) : Option CheckResult :=
  let key := getKey identifier action
  if s.use_redis then
    if redisUp then
      match checkRedis ((lookupA s.redis key).getD []) limit window now with
      | none => none
      | some (d, z2) => some ⟨d, { s with redis := updateA s.redis key z2 }, true⟩
    else
      match checkMem s.attempts identifier limit window now with
      | none => none
      | some (d, m2) => some ⟨d, ⟨m2, s.redis, false⟩, false⟩
  else
    match checkMem s.attempts identifier limit window now with
    | none => none
    | some (d, m2) => some ⟨d, ⟨m2, s.redis, s.use_redis⟩, false⟩

/-- `self.locked_ips`: identity → expiry timestamp. -/
abbrev LockMap := List (String × Int)

/-- `RateLimiter.is_ip_locked` (lines 143–152): returns the boolean and the
lock map after the lazy deletion of an expired entry. -/
def is_ip_locked (locked : LockMap) (ip : String) (now : Int) : Bool × LockMap :=
  match lookupA locked ip with
  | some lockUntil =>
    if now < lockUntil then (true, locked) else (false, removeA locked ip)
  | none => (false, locked)

/-- `RateLimiter.lock_ip` (lines 154–156). -/
def lock_ip (locked : LockMap) (ip : String) (duration now : Int) : LockMap :=
  updateA locked ip (now + duration)

/-- `RateLimiter.get_remaining_time` (lines 158–164). -/
def get_remaining_time (locked : LockMap) (ip : String) (now : Int) : Int :=
  match lookupA locked ip with
  | some lockUntil => max 0 (lockUntil - now)
  | none => 0

/-- A sequence of memory-path checks for one identifier at the given call
times, collecting the returned decisions (`none` as soon as one call
raises). -/
def runMem (m : AttemptsMap) (identifier : String) (limit window : Int) :
    List Int → Option (List Decision × AttemptsMap)
  | [] => some ([], m)
  | t :: ts =>
    match checkMem m identifier limit window t with
    | none => none
    | some (d, m2) =>
      match runMem m2 identifier limit window ts with
      | none => none
      | some (ds, mf) => some (d :: ds, mf)

/-- Number of `true`s in a list of booleans. -/
def countTrue : List Bool → Nat
  | [] => 0
  | b :: r => (if b then 1 else 0) + countTrue r

/-- Reference admission pattern of a pure counter: starting from `k`
stored entries, admit while the count is below the limit. -/
def fullFrom (limit : Int) : Nat → Nat → List Bool
  | _, 0 => []
  | k, n + 1 =>
    if (k : Int) < limit then true :: fullFrom limit (k + 1) n
    else false :: fullFrom limit k n

/-- Looking up the key just updated returns the new value. -/
theorem lookupA_updateA_self {α : Type} (m : List (String × α)) (k : String) (v : α) :
    lookupA (updateA m k v) k = some v := by
  induction m with
  | nil => simp [updateA, lookupA]
  | cons p rest ih =>
    by_cases h : p.1 = k
    · simp [updateA, h, lookupA]
    · simp [updateA, h, lookupA, ih]

/-- Updating one key does not change lookups of other keys. -/
theorem lookupA_updateA_ne {α : Type} (m : List (String × α)) (k k' : String) (v : α)
    (h : k' ≠ k) : lookupA (updateA m k v) k' = lookupA m k' := by
  induction m with
  | nil => simp [updateA, lookupA, Ne.symm h]
  | cons p rest ih =>
    by_cases hp : p.1 = k
    · simp [updateA, hp, lookupA, Ne.symm h, hp ▸ Ne.symm h]
    · by_cases hq : p.1 = k'
      · simp [updateA, hp, lookupA, hq, h]
      · simp [updateA, hp, lookupA, hq, ih]

theorem getW_updateA_self (m : AttemptsMap) (k : String) (v : List Int) :
    getW (updateA m k v) k = v := by
  simp [getW, lookupA_updateA_self]

theorem getW_updateA_ne (m : AttemptsMap) (k k' : String) (v : List Int)
    (h : k' ≠ k) : getW (updateA m k v) k' = getW m k' := by
  simp [getW, lookupA_updateA_ne m k k' v h]

/-- Appending a fresh key at the end: lookup of that key finds it when it
was absent before. -/
theorem lookupA_append_right {α : Type} (m : List (String × α)) (k : String) (v : α)
    (h : lookupA m k = none) : lookupA (m ++ [(k, v)]) k = some v := by
  induction m with
  | nil => simp [lookupA]
  | cons p rest ih =>
    by_cases hp : p.1 = k
    · simp [lookupA, hp] at h
    · simp only [lookupA, hp, if_false, List.cons_append, if_neg] at h ⊢
      exact ih h

/-- Appending an entry for another key does not change a lookup. -/
theorem lookupA_append_ne {α : Type} (m : List (String × α)) (k k' : String) (v : α)
    (h : k' ≠ k) : lookupA (m ++ [(k, v)]) k' = lookupA m k' := by
  induction m with
  | nil => simp [lookupA, Ne.symm h]
  | cons p rest ih =>
    by_cases hq : p.1 = k'
    · simp [lookupA, hq]
    · simp [lookupA, hq, ih]

theorem getW_ensureKey_self (m : AttemptsMap) (k : String) :
    getW (ensureKey m k) k = getW m k := by
  unfold ensureKey
  cases h : lookupA m k with
  | some l => simp [getW, h]
  | none => simp [getW, h, lookupA_append_right m k [] h]

theorem getW_ensureKey_ne (m : AttemptsMap) (k k' : String) (h : k' ≠ k) :
    getW (ensureKey m k) k' = getW m k' := by
  unfold ensureKey
  cases hl : lookupA m k with
  | some l => rfl
  | none => simp [getW, lookupA_append_ne m k k' [] h]

/-- Two successive updates of the same key collapse to the second one. -/
theorem updateA_updateA {α : Type} (m : List (String × α)) (k : String) (v v' : α) :
    updateA (updateA m k v) k v' = updateA m k v' := by
  induction m with
  | nil => simp [updateA]
  | cons p rest ih =>
    by_cases hp : p.1 = k
    · simp [updateA, hp]
    · simp [updateA, hp, ih]

/-- A lookup fails exactly when the key is absent. -/
theorem lookupA_eq_none_iff {α : Type} (m : List (String × α)) (k : String) :
    lookupA m k = none ↔ k ∉ m.map Prod.fst := by
  induction m with
  | nil => simp [lookupA]
  | cons p rest ih =>
    by_cases hp : p.1 = k
    · simp [lookupA, hp]
    · simp [lookupA, hp, ih, Ne.symm hp]

/-- With pairwise-distinct keys (as in a Python dict), removing a key
makes its lookup fail. -/
theorem lookupA_removeA_self {α : Type} (m : List (String × α)) (k : String)
    (hnodup : (m.map Prod.fst).Nodup) : lookupA (removeA m k) k = none := by
  induction m with
  | nil => simp [removeA, lookupA]
  | cons p rest ih =>
    simp only [List.map_cons, List.nodup_cons] at hnodup
    by_cases hp : p.1 = k
    · rw [removeA, if_pos hp, lookupA_eq_none_iff]
      rw [hp] at hnodup
      exact hnodup.1
    · rw [removeA, if_neg hp, lookupA, if_neg hp]
      exact ih hnodup.2

/-- C10: the identity-lock contract.  `is_ip_locked` is true exactly when
a stored lock has its expiry strictly in the future; an expired entry is
deleted by the read; `lock_ip` stores expiry `now + duration`; and the
concrete scenario holds at every base time `t`: immediately after
`lock_ip ip 300`, `is_ip_locked` is true and `get_remaining_time` is 300,
while 301 seconds later `is_ip_locked` is false and `get_remaining_time`
is 0. -/
theorem ip_lock_contract (locked : LockMap) (ip : String) (now d t : Int)
    (hnodup : (locked.map Prod.fst).Nodup) :
    ((is_ip_locked locked ip now).1 = true ↔
      ∃ u, lookupA locked ip = some u ∧ now < u) ∧
    (∀ u, lookupA locked ip = some u → u ≤ now →
      lookupA ((is_ip_locked locked ip now).2) ip = none) ∧
    lookupA (lock_ip locked ip d now) ip = some (now + d) ∧
    ((is_ip_locked (lock_ip [] "9.9.9.9" 300 t) "9.9.9.9" t).1 = true ∧
     get_remaining_time (lock_ip [] "9.9.9.9" 300 t) "9.9.9.9" t = 300 ∧
     (is_ip_locked (lock_ip [] "9.9.9.9" 300 t) "9.9.9.9" (t + 301)).1 = false ∧
     get_remaining_time (lock_ip [] "9.9.9.9" 300 t) "9.9.9.9" (t + 301) = 0) := by
  refine ⟨?_, ?_, ?_, ?_, ?_, ?_, ?_⟩
  · unfold is_ip_locked
    cases h : lookupA locked ip with
    | none => simp
    | some u =>
      by_cases hu : now < u
      · simp [hu]
      · simp [hu]
  · intro u hu hle
    unfold is_ip_locked
    simp only [hu, if_neg (show ¬now < u by omega)]
    exact lookupA_removeA_self locked ip hnodup
  · exact lookupA_updateA_self locked ip (now + d)
  · simp [lock_ip, updateA, is_ip_locked, lookupA, show t < t + 300 by omega]
  · have h1 : t + 300 - t = (300 : Int) := by ring
    simp [get_remaining_time, lock_ip, updateA, lookupA, h1]
  · simp [lock_ip, updateA, is_ip_locked, lookupA, show ¬(t + 301 < t + 300) by omega]
  · simp [get_remaining_time, lock_ip, updateA, lookupA]

/-- C3: on the memory path, state is keyed by `identifier` alone: an
admission recorded under action `login` makes the very first check for
action `verify` of the same identity deny (limit 1, window 60, times 0
and 1).  The action-qualified key from `_get_key` is computed but unused
on this path, contradicting its own docstring. -/
theorem memory_actions_share_window_bug :
    (check_rate_limit ⟨[], [], false⟩ false "1.2.3.4" "login" 1 60 0).map
        (fun r => (r.decision.allowed, r.state.attempts)) =
      some (true, [("1.2.3.4", [0])]) ∧
    (check_rate_limit ⟨[("1.2.3.4", [0])], [], false⟩ false "1.2.3.4" "verify" 1 60 1).map
        (fun r => (r.decision.allowed, r.decision.retry_after)) =
      some (false, 59) := by
  constructor <;> rfl

/-- C6: with `limit = 0` and an empty window, the memory path takes the
deny branch (`0 >= 0`) and evaluates `self.attempts[identifier][0]` on an
empty list, raising `IndexError` (modelled as `none`) instead of
returning an `allowed=false` decision. -/
theorem zero_limit_first_call_crash :
    check_rate_limit ⟨[], [], false⟩ false "1.2.3.4" "login" 0 60 0 = none := by
  rfl

/-- C7 counterexample: the claimed trace for `limit=3, window=60` at times
0,1,2,3,61 does not occur: the call at t=61 returns `remaining=1`, not 2
(the t=1 entry has also rotated out, but the t=2 entry remains and the
fresh t=61 entry counts, leaving `3 - 2 = 1`). -/
theorem scenario_remaining_cex :
    (runMem [] "1.2.3.4" 3 60 [0, 1, 2, 3, 61]).map
        (fun p => p.1.map (fun d => (d.allowed, d.remaining, d.retry_after))) ≠
      some [(true, 2, 0), (true, 1, 0), (true, 0, 0), (false, 0, 57), (true, 2, 0)] := by
  decide

/-- C7 amended: the actual trace for `limit=3, window=60` at times
0,1,2,3,61: the first three calls are admitted with remaining 2,1,0, the
call at t=3 is denied with `retry_after=57`, and the call at t=61 is
admitted with `remaining=1` (entries t=0 and t=1 have rotated out of the
window, entry t=2 survives). -/
theorem scenario_amended :
    (runMem [] "1.2.3.4" 3 60 [0, 1, 2, 3, 61]).map
        (fun p => (p.1.map (fun d => (d.allowed, d.remaining, d.retry_after)), p.2)) =
      some ([(true, 2, 0), (true, 1, 0), (true, 0, 0), (false, 0, 57), (true, 1, 0)],
            [("1.2.3.4", [2, 61])]) := by
  rfl

/-- C1 counterexample: on the Redis path two checks with the identical
timestamp share the zset member `str(current_time)`, so `ZADD` collapses
them: with `limit = 1` and `window = 60`, both calls at t=0 are admitted
— more than `L` admissions inside one window interval. -/
theorem redis_same_timestamp_ceiling_cex :
    (check_rate_limit ⟨[], [], true⟩ true "1.2.3.4" "login" 1 60 0).map
        (fun r => (r.decision.allowed, r.state.redis)) =
      some (true, [("rl:login:1.2.3.4", [0])]) ∧
    (check_rate_limit ⟨[], [("rl:login:1.2.3.4", [0])], true⟩ true "1.2.3.4" "login" 1 60 0).map
        (fun r => r.decision.allowed) =
      some true := by
  constructor <;> rfl

/-- C2 counterexample: on the Redis path the current timestamp is added
(`ZADD`) before the size check, so a denied call does change the stored
timestamps: with `limit = 1`, after an admission at t=0 the denied call
at t=1 leaves the stored set `[0, 1]`, not `[0]`. -/
theorem redis_denial_records_cex :
    getW [("rl:login:1.2.3.4", [0])] "rl:login:1.2.3.4" = [0] ∧
    (check_rate_limit ⟨[], [("rl:login:1.2.3.4", [0])], true⟩ true "1.2.3.4" "login" 1 60 1).map
        (fun r => (r.decision.allowed, getW r.state.redis "rl:login:1.2.3.4")) =
      some (false, [0, 1]) := by
  constructor <;> rfl

/-- C4 counterexample: with the shared store unreachable and `limit = 0`
on a fresh key, the fallback memory path raises `IndexError` (modelled as
`none`) instead of returning a valid decision, so the claim's "for every
input" fails. -/
theorem fallback_crashes_on_zero_limit_cex :
    check_rate_limit ⟨[], [], true⟩ false "1.2.3.4" "login" 0 60 0 = none := by
  rfl

/-- C5 counterexample: a Redis failure at t=0 sets `use_redis = False`
permanently; the next call at t=1 with Redis healthy again
(`redisUp = true`) still takes the memory path (`usedRedis = false`) and
leaves the shared store untouched. -/
theorem no_redis_reuse_after_recovery_cex :
    (check_rate_limit ⟨[], [], true⟩ false "1.2.3.4" "login" 1 60 0).map
        (fun r => (r.usedRedis, r.state.use_redis, r.state.attempts, r.state.redis)) =
      some (false, false, [("1.2.3.4", [0])], []) ∧
    (check_rate_limit ⟨[("1.2.3.4", [0])], [], false⟩ true "1.2.3.4" "login" 1 60 1).map
        (fun r => (r.usedRedis, r.state.use_redis, r.state.redis)) =
      some (false, false, []) := by
  constructor <;> rfl

/-- C8 counterexample: a call with empty identity, empty action and a
negative window performs no validation and silently returns
`allowed=true` rather than signalling an `InvalidArgument` error. -/
theorem invalid_input_allowed_cex :
    (check_rate_limit ⟨[], [], false⟩ false "" "" 1 (-5) 0).map
        (fun r => r.decision.allowed) = some true := by
  rfl

/-- C9 counterexample: a check call prunes only the checked identifier's
window: after an admission for key `a` at t=0, a check for key `b` at
t=1000 with `window = 60` leaves the stale timestamp 0 stored under `a`,
and `1000 - 0 < 60` is false. -/
theorem other_key_stale_cex :
    (check_rate_limit ⟨[("a", [0])], [], false⟩ false "b" "login" 1 60 1000).map
        (fun r => getW r.state.attempts "a") = some [0] ∧
    ¬((1000 : Int) - 0 < 60) := by
  exact ⟨rfl, by decide⟩

/-- C10 witness at a concrete lock map: the expired lock `("x", 5)` read
at time 10 is deleted, and locking `9.9.9.9` at time 0 makes it locked. -/
theorem ip_lock_contract_witness :
    (List.map Prod.fst [("x", (5 : Int))]).Nodup ∧
    lookupA ((is_ip_locked [("x", (5 : Int))] "x" 10).2) "x" = none ∧
    (is_ip_locked (lock_ip [] "9.9.9.9" 300 0) "9.9.9.9" 0).1 = true :=
  ⟨by decide,
   (ip_lock_contract [("x", 5)] "x" 10 0 0 (by decide)).2.1 5 (by decide) (by decide),
   (ip_lock_contract [("x", 5)] "x" 10 0 0 (by decide)).2.2.2.1⟩

/-- With a positive limit the memory path always returns a decision, and
admits exactly when the pruned stored window is shorter than the limit. -/
theorem checkMem_some_of_one_le (m : AttemptsMap) (identifier : String)
    (limit window now : Int) (hL : 1 ≤ limit) :
    ∃ d m2, checkMem m identifier limit window now = some (d, m2) ∧
      d.allowed = decide (((prune (getW m identifier) now window).length : Int) < limit) := by
  have hk : getW (ensureKey m identifier) identifier = getW m identifier :=
    getW_ensureKey_self m identifier
  simp only [checkMem, hk]
  by_cases hc : limit ≤ ((prune (getW m identifier) now window).length : Int)
  · rw [if_pos hc]
    cases hpr : prune (getW m identifier) now window with
    | nil => rw [hpr] at hc; simp at hc; omega
    | cons o rest =>
      refine ⟨_, _, rfl, ?_⟩
      rw [hpr] at hc
      exact (decide_eq_false (by omega)).symm
  · rw [if_neg hc]
    exact ⟨_, _, rfl, (decide_eq_true (by omega)).symm⟩

/-- C2 amended: on the memory path a denied check leaves the stored
timestamps unchanged apart from the idempotent pruning of expired
entries — the checked identifier's window becomes exactly its pruned old
window, and no other identifier's window changes.  (On the Redis path the
claim fails: the current timestamp is added before the limit check.) -/
theorem memory_denial_frame (m : AttemptsMap) (identifier : String)
    (limit window now : Int) (d : Decision) (m2 : AttemptsMap)
    (h : checkMem m identifier limit window now = some (d, m2))
    (hd : d.allowed = false) :
    getW m2 identifier = prune (getW m identifier) now window ∧
    ∀ j, j ≠ identifier → getW m2 j = getW m j := by
  have hk : getW (ensureKey m identifier) identifier = getW m identifier :=
    getW_ensureKey_self m identifier
  simp only [checkMem, hk] at h
  by_cases hc : limit ≤ ((prune (getW m identifier) now window).length : Int)
  · rw [if_pos hc] at h
    cases hpr : prune (getW m identifier) now window with
    | nil => rw [hpr] at h; cases h
    | cons o rest =>
      rw [hpr] at h
      simp only [Option.some.injEq, Prod.mk.injEq] at h
      obtain ⟨hdec, hm⟩ := h
      constructor
      · rw [← hm, getW_updateA_self]
      · intro j hj
        rw [← hm, getW_updateA_ne _ _ _ _ hj, getW_ensureKey_ne m identifier j hj]
  · rw [if_neg hc] at h
    simp only [Option.some.injEq, Prod.mk.injEq] at h
    obtain ⟨hdec, hm⟩ := h
    rw [← hdec] at hd
    cases hd

/-- C2 witness: with `limit = 1` and one admission at t=0 stored for key
`a`, the denied check at t=1 leaves key `a` at its pruned old window. -/
theorem memory_denial_frame_witness :
    getW [("a", [(0 : Int)])] "a" = prune (getW [("a", [(0 : Int)])] "a") 1 60 :=
  (memory_denial_frame [("a", [0])] "a" 1 60 1
    ⟨false, 0, 1, 60, 59, some "Rate limit exceeded. Try again in 59 seconds."⟩
    [("a", [0])] (by decide) (by decide)).1

/-- C4 amended: for every state and every call with `limit ≥ 1`, when the
shared store is unreachable (the Redis pipeline raises), `check_rate_limit`
still returns a complete decision computed by the in-memory fallback and
enforces the limit there; no exception from the shared-store path reaches
the caller.  (Without `limit ≥ 1` the claim fails: the fallback itself
raises `IndexError` on an empty window.) -/
theorem fallback_returns_decision (s : RLState) (identifier action : String)
    (limit window now : Int) (hL : 1 ≤ limit) :
    ∃ r, check_rate_limit s false identifier action limit window now = some r ∧
      r.usedRedis = false ∧
      checkMem s.attempts identifier limit window now = some (r.decision, r.state.attempts) ∧
      r.decision.allowed =
        decide (((prune (getW s.attempts identifier) now window).length : Int) < limit) := by
  obtain ⟨d, m2, hcm, hall⟩ := checkMem_some_of_one_le s.attempts identifier limit window now hL
  by_cases hur : s.use_redis = true
  · refine ⟨⟨d, ⟨m2, s.redis, false⟩, false⟩, ?_, rfl, hcm, hall⟩
    simp [check_rate_limit, hur, hcm]
  · have hur2 : s.use_redis = false := by
      cases h : s.use_redis
      · rfl
      · exact absurd h hur
    refine ⟨⟨d, ⟨m2, s.redis, false⟩, false⟩, ?_, rfl, hcm, hall⟩
    simp [check_rate_limit, hur2, hcm]

/-- C4 witness at a fresh limiter with Redis configured but unreachable:
the call returns a decision rather than propagating the failure. -/
theorem fallback_returns_decision_witness :
    (check_rate_limit ⟨[], [], true⟩ false "1.2.3.4" "login" 1 60 0).isSome = true := by
  obtain ⟨r, hr, _⟩ :=
    fallback_returns_decision ⟨[], [], true⟩ "1.2.3.4" "login" 1 60 0 (by decide)
  rw [hr]
  rfl

/-- C5 amended: the backend choice is sticky-off.  A call that finds
`use_redis` already false never touches the shared store and leaves
`use_redis` false, and a shared-store failure itself turns `use_redis`
off — so after one failure every later call keeps using the local store
even once the shared store has recovered. -/
theorem use_redis_sticky (s : RLState) (redisUp : Bool) (identifier action : String)
    (limit window now : Int) (r : CheckResult) :
    (s.use_redis = true → redisUp = false →
      check_rate_limit s redisUp identifier action limit window now = some r →
      r.usedRedis = false ∧ r.state.use_redis = false ∧ r.state.redis = s.redis) ∧
    (s.use_redis = false →
      check_rate_limit s redisUp identifier action limit window now = some r →
      r.usedRedis = false ∧ r.state.use_redis = false ∧ r.state.redis = s.redis) := by
  constructor
  · intro h1 h2 h3
    cases hcm : checkMem s.attempts identifier limit window now with
    | none =>
      have hnone : check_rate_limit s redisUp identifier action limit window now = none := by
        simp [check_rate_limit, h1, h2, hcm]
      rw [hnone] at h3
      cases h3
    | some p =>
      obtain ⟨d, m2⟩ := p
      have hsome : check_rate_limit s redisUp identifier action limit window now =
          some ⟨d, ⟨m2, s.redis, false⟩, false⟩ := by
        simp [check_rate_limit, h1, h2, hcm]
      rw [hsome] at h3
      injection h3 with h4
      subst h4
      exact ⟨rfl, rfl, rfl⟩
  · intro h1 h3
    cases hcm : checkMem s.attempts identifier limit window now with
    | none =>
      have hnone : check_rate_limit s redisUp identifier action limit window now = none := by
        simp [check_rate_limit, h1, hcm]
      rw [hnone] at h3
      cases h3
    | some p =>
      obtain ⟨d, m2⟩ := p
      have hsome : check_rate_limit s redisUp identifier action limit window now =
          some ⟨d, ⟨m2, s.redis, false⟩, false⟩ := by
        simp [check_rate_limit, h1, hcm]
      rw [hsome] at h3
      injection h3 with h4
      subst h4
      exact ⟨rfl, rfl, rfl⟩

/-- C5 witness: a call on a limiter whose `use_redis` flag is already off
(after the failure at t=0 recorded the attempt in memory) does not use
the shared store, even though `redisUp = true`. -/
theorem use_redis_sticky_witness :
    (⟨⟨true, 0, 1, 60, 0, none⟩, ⟨[("1.2.3.4", [(0 : Int)])], [], false⟩,
        false⟩ : CheckResult).usedRedis = false ∧
    (⟨⟨true, 0, 1, 60, 0, none⟩, ⟨[("1.2.3.4", [(0 : Int)])], [], false⟩,
        false⟩ : CheckResult).state.use_redis = false ∧
    (⟨⟨true, 0, 1, 60, 0, none⟩, ⟨[("1.2.3.4", [(0 : Int)])], [], false⟩,
        false⟩ : CheckResult).state.redis = (⟨[], [], true⟩ : RLState).redis :=
  (use_redis_sticky ⟨[], [], true⟩ false "1.2.3.4" "login" 1 60 0
      ⟨⟨true, 0, 1, 60, 0, none⟩, ⟨[("1.2.3.4", [0])], [], false⟩, false⟩).1
    rfl rfl (by decide)

/-- C8 amended: the code validates nothing.  A call with any identity and
action strings (including empty ones) and any window (including negative
ones) on a fresh limiter is processed like a normal check and, with
`limit ≥ 1`, silently returns `allowed=true` instead of signalling an
`InvalidArgument` error. -/
theorem no_input_validation (identifier action : String) (limit window now : Int)
    (hL : 1 ≤ limit) :
    ∃ r, check_rate_limit ⟨[], [], false⟩ false identifier action limit window now = some r ∧
      r.decision.allowed = true := by
  obtain ⟨d, m2, hcm, hall⟩ := checkMem_some_of_one_le [] identifier limit window now hL
  refine ⟨⟨d, ⟨m2, [], false⟩, false⟩, ?_, ?_⟩
  · simp [check_rate_limit, hcm]
  · have h0 : prune (getW [] identifier) now window = [] := rfl
    rw [hall, h0]
    exact decide_eq_true (by simp; omega)

/-- C8 witness: another uninspected call (negative window, limit 2) is
silently admitted. -/
theorem no_input_validation_witness :
    (check_rate_limit ⟨[], [], false⟩ false "x" "y" 2 (-1) 7).map
      (fun r => r.decision.allowed) = some true := by
  obtain ⟨r, hr, ha⟩ := no_input_validation "x" "y" 2 (-1) 7 (by decide)
  rw [hr]
  simp [ha]

/-- If the hour-scale prune of the stored window for a key is non-empty,
the cleanup pass maps that key's window to exactly that prune (the first
entry for the key survives the sweep, so later entries stay shadowed). -/
theorem getW_cleanup (m : AttemptsMap) (now : Int) (k : String)
    (h : prune (getW m k) now 3600 ≠ []) :
    getW (cleanupOldEntries m now) k = prune (getW m k) now 3600 := by
  induction m with
  | nil => simp [getW, lookupA, prune] at h
  | cons p rest ih =>
    by_cases hp : p.1 = k
    · have hw : getW (p :: rest) k = p.2 := by simp [getW, lookupA, hp]
      rw [hw] at h ⊢
      have hq : (!(prune p.2 now 3600).isEmpty) = true := by
        cases hc : prune p.2 now 3600 with
        | nil => exact absurd hc h
        | cons a as => rfl
      simp [cleanupOldEntries, List.filter_cons, hq, getW, lookupA, hp]
    · have hw : getW (p :: rest) k = getW rest k := by simp [getW, lookupA, hp]
      rw [hw] at h ⊢
      have hrec := ih h
      by_cases hq : (prune p.2 now 3600).isEmpty = true
      · simpa [cleanupOldEntries, List.filter_cons, hq] using hrec
      · have hq2 : (!(prune p.2 now 3600).isEmpty) = true := by
          cases hb : (prune p.2 now 3600).isEmpty
          · rfl
          · exact absurd hb hq
        simpa [cleanupOldEntries, List.filter_cons, hq2, getW, lookupA, hp] using hrec

/-- After any completed memory-path check with a positive window, the
stored window of the checked identifier holds only timestamps within
`window` of `now`. -/
theorem checkMem_window (m : AttemptsMap) (identifier : String)
    (limit window now : Int) (d : Decision) (m2 : AttemptsMap) (hW : 0 < window)
    (h : checkMem m identifier limit window now = some (d, m2)) :
    ∀ x ∈ getW m2 identifier, now - x < window := by
  simp only [checkMem] at h
  generalize hpr : prune (getW (ensureKey m identifier) identifier) now window = pr at h
  generalize hE : ensureKey m identifier = E at h
  have hmem : ∀ x ∈ pr, now - x < window := by
    intro x hx
    rw [← hpr] at hx
    exact of_decide_eq_true (List.mem_filter.mp hx).2
  by_cases hc : limit ≤ (pr.length : Int)
  · rw [if_pos hc] at h
    cases pr with
    | nil => cases h
    | cons o rest =>
      rw [Option.some.injEq, Prod.mk.injEq] at h
      obtain ⟨hdec, hm⟩ := h
      intro x hx
      rw [← hm, getW_updateA_self] at hx
      exact hmem x hx
  · rw [if_neg hc] at h
    rw [Option.some.injEq, Prod.mk.injEq] at h
    obtain ⟨hdec, hm⟩ := h
    rw [updateA_updateA] at hm
    intro x hx
    rw [← hm] at hx
    by_cases hlen : 1000 < (updateA E identifier (pr ++ [now])).length
    · rw [if_pos hlen] at hx
      have hne : prune (getW (updateA E identifier (pr ++ [now])) identifier) now 3600 ≠ [] := by
        rw [getW_updateA_self]
        intro hcon
        have hm2 : now ∈ prune (pr ++ [now]) now 3600 :=
          List.mem_filter.mpr
            ⟨List.mem_append.mpr (Or.inr (List.mem_singleton.mpr rfl)),
             decide_eq_true (by omega)⟩
        rw [hcon] at hm2
        cases hm2
      rw [getW_cleanup _ _ _ hne, getW_updateA_self] at hx
      have hx2 := (List.mem_filter.mp hx).1
      rcases List.mem_append.mp hx2 with hxa | hxb
      · exact hmem x hxa
      · have hxn : x = now := List.mem_singleton.mp hxb
        omega
    · rw [if_neg hlen, getW_updateA_self] at hx
      rcases List.mem_append.mp hx with hxa | hxb
      · exact hmem x hxa
      · have hxn : x = now := List.mem_singleton.mp hxb
        omega

/-- C9 amended: after any local-path `check_rate_limit` call that returns
(with a positive window), the checked identifier's stored window contains
only timestamps within `window` seconds of the call's `now`.  Windows of
other identifiers are not pruned by the call (see the counterexample). -/
theorem checked_key_window_invariant (s : RLState) (redisUp : Bool)
    (identifier action : String) (limit window now : Int) (r : CheckResult)
    (hur : s.use_redis = false) (hW : 0 < window)
    (h : check_rate_limit s redisUp identifier action limit window now = some r) :
    ∀ x ∈ getW r.state.attempts identifier, now - x < window := by
  cases hcm : checkMem s.attempts identifier limit window now with
  | none =>
    have hnone : check_rate_limit s redisUp identifier action limit window now = none := by
      simp [check_rate_limit, hur, hcm]
    rw [hnone] at h
    cases h
  | some p =>
    obtain ⟨d, m2⟩ := p
    have hsome : check_rate_limit s redisUp identifier action limit window now =
        some ⟨d, ⟨m2, s.redis, false⟩, false⟩ := by
      simp [check_rate_limit, hur, hcm]
    rw [hsome] at h
    injection h with h4
    subst h4
    exact checkMem_window s.attempts identifier limit window now d m2 hW hcm

/-- C9 witness: the admitted timestamp 5 stored for key `b` is within 60
seconds of `now = 5`. -/
theorem checked_key_window_invariant_witness : (5 : Int) - 5 < 60 :=
  checked_key_window_invariant ⟨[], [], false⟩ false "b" "login" 1 60 5
    ⟨⟨true, 0, 1, 65, 0, none⟩, ⟨[("b", [5])], [], false⟩, false⟩ rfl (by decide)
    (by decide) 5 (by decide)

/-- The first check on a fresh limiter behaves like a check on a map that
already holds an empty window for the identifier. -/
theorem checkMem_nil_eq (i : String) (L W t : Int) :
    checkMem [] i L W t = checkMem [(i, [])] i L W t := by
  simp [checkMem, ensureKey, lookupA]

/-- A single-key denial step: when every stored timestamp is still inside
the window and the window is full, the check denies and leaves the state
unchanged. -/
theorem checkMem_single_deny (i : String) (o : Int) (rest : List Int) (L W t : Int)
    (hlen : L ≤ ((o :: rest).length : Int)) (hkeep : ∀ x ∈ o :: rest, t - x < W) :
    checkMem [(i, o :: rest)] i L W t =
      some (⟨false, 0, L, o + W, o + W - t, some (denialMessage (o + W - t))⟩,
            [(i, o :: rest)]) := by
  have hpr : prune (o :: rest) t W = o :: rest :=
    List.filter_eq_self.mpr (fun a ha => decide_eq_true (hkeep a ha))
  have hlen2 : L ≤ (rest.length : Int) + 1 := by simpa using hlen
  simp [checkMem, ensureKey, lookupA, getW, updateA, hpr, hlen2]

/-- A single-key admission step: when every stored timestamp is still
inside the window and the window is not full, the check admits and
appends the current time. -/
theorem checkMem_single_allow (i : String) (l : List Int) (L W t : Int)
    (hlen : (l.length : Int) < L) (hkeep : ∀ x ∈ l, t - x < W) :
    checkMem [(i, l)] i L W t =
      some (⟨true, max 0 (L - ((l.length : Int) + 1)), L, (l ++ [t]).headD 0 + W, 0, none⟩,
            [(i, l ++ [t])]) := by
  have hpr : prune l t W = l :=
    List.filter_eq_self.mpr (fun a ha => decide_eq_true (hkeep a ha))
  cases l with
  | nil =>
    have h2 : 0 < L := by simpa using hlen
    simp [checkMem, ensureKey, lookupA, getW, updateA, hpr, h2]
  | cons a as =>
    have h2 : (as.length : Int) + 1 < L := by simpa using hlen
    simp [checkMem, ensureKey, lookupA, getW, updateA, hpr, h2]

/-- A run of memory-path checks for one identifier whose call times and
stored timestamps all lie in one window-sized interval `[a, a + W)`
behaves exactly like the pure counter `fullFrom`: no entry is ever
pruned, so the j-th call is admitted precisely while fewer than `limit`
entries are stored. -/
theorem runMem_fullFrom (i : String) (L W a : Int) (hL : 0 < L) :
    ∀ (ts l : List Int),
      (∀ x ∈ ts, a ≤ x ∧ x - a < W) →
      (∀ x ∈ l, a ≤ x ∧ x - a < W) →
      ∃ ds lf, runMem [(i, l)] i L W ts = some (ds, [(i, lf)]) ∧
        ds.map (fun d => d.allowed) = fullFrom L l.length ts.length := by
  intro ts
  induction ts with
  | nil =>
    intro l hts hl
    exact ⟨[], l, rfl, rfl⟩
  | cons t ts2 ih =>
    intro l hts hl
    have htmem : a ≤ t ∧ t - a < W := hts t (by simp)
    have hts2 : ∀ x ∈ ts2, a ≤ x ∧ x - a < W := fun x hx => hts x (by simp [hx])
    have hkeep : ∀ x ∈ l, t - x < W := by
      intro x hx
      have h1 := hl x hx
      omega
    by_cases hc : L ≤ (l.length : Int)
    · cases l with
      | nil =>
        exfalso
        simp at hc
        omega
      | cons o rest =>
        obtain ⟨ds, lf, hrun, hmap⟩ := ih (o :: rest) hts2 hl
        refine ⟨⟨false, 0, L, o + W, o + W - t, some (denialMessage (o + W - t))⟩ :: ds,
          lf, ?_, ?_⟩
        · simp only [runMem, checkMem_single_deny i o rest L W t hc hkeep, hrun]
        · calc (({ allowed := false, remaining := 0, limit := L, reset := o + W,
                   retry_after := o + W - t,
                   message := some (denialMessage (o + W - t)) } : Decision) :: ds).map
                  (fun d => d.allowed)
              = false :: ds.map (fun d => d.allowed) := rfl
            _ = false :: fullFrom L (o :: rest).length ts2.length := by rw [hmap]
            _ = fullFrom L (o :: rest).length (ts2.length + 1) := by
                symm
                simp only [fullFrom]
                rw [if_neg (show ¬(((o :: rest).length : Int) < L) by omega)]
    · have hlen : (l.length : Int) < L := by omega
      have hl2 : ∀ x ∈ l ++ [t], a ≤ x ∧ x - a < W := by
        intro x hx
        rcases List.mem_append.mp hx with h1 | h1
        · exact hl x h1
        · have hxt : x = t := List.mem_singleton.mp h1
          rw [hxt]
          exact htmem
      obtain ⟨ds, lf, hrun, hmap⟩ := ih (l ++ [t]) hts2 hl2
      refine ⟨⟨true, max 0 (L - ((l.length : Int) + 1)), L, (l ++ [t]).headD 0 + W, 0,
        none⟩ :: ds, lf, ?_, ?_⟩
      · simp only [runMem, checkMem_single_allow i l L W t hlen hkeep, hrun]
      · calc (({ allowed := true, remaining := max 0 (L - ((l.length : Int) + 1)),
                 limit := L, reset := (l ++ [t]).headD 0 + W, retry_after := 0,
                 message := none } : Decision) :: ds).map (fun d => d.allowed)
            = true :: ds.map (fun d => d.allowed) := rfl
          _ = true :: fullFrom L (l ++ [t]).length ts2.length := by rw [hmap]
          _ = fullFrom L l.length (ts2.length + 1) := by
              have hlt : (l ++ [t]).length = l.length + 1 := by simp
              rw [hlt]
              symm
              simp only [fullFrom]
              rw [if_pos hlen]

/-- The counter admits at most `limit - k` times starting from `k` stored
entries. -/
theorem countTrue_fullFrom_le (L : Int) :
    ∀ (n k : Nat), (k : Int) ≤ L → (countTrue (fullFrom L k n) : Int) ≤ L - k := by
  intro n
  induction n with
  | zero =>
    intro k hk
    simp [fullFrom, countTrue]
    omega
  | succ n ih =>
    intro k hk
    by_cases h : (k : Int) < L
    · have h2 := ih (k + 1) (by push_cast; omega)
      simp only [fullFrom, if_pos h, countTrue, if_true]
      push_cast at h2 ⊢
      omega
    · have h2 := ih k hk
      simp only [fullFrom, if_neg h, countTrue, if_false]
      push_cast at h2 ⊢
      omega

/-- Wherever the counter's output is split around one element, that
element is `true` exactly when the entries stored so far (the initial
`k` plus the admissions before the split) are still below the limit. -/
theorem fullFrom_split (L : Int) :
    ∀ (n k : Nat) (l1 l2 : List Bool) (b : Bool),
      fullFrom L k n = l1 ++ b :: l2 →
      b = decide ((k : Int) + (countTrue l1 : Int) < L) := by
  intro n
  induction n with
  | zero =>
    intro k l1 l2 b h
    exfalso
    have hlen := congrArg List.length h
    simp [fullFrom] at hlen
    omega
  | succ n ih =>
    intro k l1 l2 b h
    by_cases hk : (k : Int) < L
    · rw [show fullFrom L k (n + 1) = true :: fullFrom L (k + 1) n from by
        simp [fullFrom, hk]] at h
      cases l1 with
      | nil =>
        simp only [List.nil_append, List.cons.injEq] at h
        rw [← h.1]
        simp only [countTrue]
        exact (decide_eq_true (by push_cast; omega)).symm
      | cons c l1' =>
        simp only [List.cons_append, List.cons.injEq] at h
        obtain ⟨hc, h2⟩ := h
        have hrec := ih (k + 1) l1' l2 b h2
        rw [hrec, decide_eq_decide, ← hc]
        simp only [countTrue, if_true]
        push_cast
        constructor <;> intro <;> omega
    · rw [show fullFrom L k (n + 1) = false :: fullFrom L k n from by
        simp [fullFrom, hk]] at h
      cases l1 with
      | nil =>
        simp only [List.nil_append, List.cons.injEq] at h
        rw [← h.1]
        simp only [countTrue]
        exact (decide_eq_false (by push_cast; omega)).symm
      | cons c l1' =>
        simp only [List.cons_append, List.cons.injEq] at h
        obtain ⟨hc, h2⟩ := h
        have hrec := ih k l1' l2 b h2
        rw [hrec, decide_eq_decide, ← hc]
        simp only [countTrue, if_false]
        push_cast
        constructor <;> intro <;> omega

/-- C1 amended: the admission ceiling holds on the local in-memory path.
For any identifier, positive limit `L` and window `W`, and any sequence
of check calls on a fresh limiter whose times all lie within one
window-sized interval `[a, a + W)`, at most `L` of the calls are
admitted, and as soon as `L` earlier calls have been admitted the next
call in the interval is denied.  (On the Redis path the claim as stated
fails for identical timestamps — see the counterexample.) -/
theorem memory_admission_ceiling (i : String) (L W a : Int) (ts : List Int)
    (hL : 0 < L) (hW : 0 < W) (hts : ∀ x ∈ ts, a ≤ x ∧ x - a < W) :
    ∃ ds mf, runMem [] i L W ts = some (ds, mf) ∧
      (countTrue (ds.map (fun d => d.allowed)) : Int) ≤ L ∧
      ∀ ds1 d ds2, ds = ds1 ++ d :: ds2 →
        (countTrue (ds1.map (fun d2 => d2.allowed)) : Int) = L →
        d.allowed = false := by
  cases ts with
  | nil =>
    refine ⟨[], [], rfl, by simp [countTrue]; omega, ?_⟩
    intro ds1 d ds2 hsplit hcnt
    exfalso
    cases ds1 <;> simp at hsplit
  | cons t ts2 =>
    have h0 : runMem [] i L W (t :: ts2) = runMem [(i, [])] i L W (t :: ts2) := by
      simp only [runMem, checkMem_nil_eq]
    obtain ⟨ds, lf, hrun, hmap⟩ := runMem_fullFrom i L W a hL (t :: ts2) [] hts (by simp)
    have hmap0 : ds.map (fun d => d.allowed) = fullFrom L 0 (t :: ts2).length := by
      simpa using hmap
    refine ⟨ds, [(i, lf)], by rw [h0, hrun], ?_, ?_⟩
    · rw [hmap0]
      have hle := countTrue_fullFrom_le L (t :: ts2).length 0 (by omega)
      simpa using hle
    · intro ds1 d ds2 hsplit hcnt
      have hm2 : fullFrom L 0 (t :: ts2).length =
          ds1.map (fun d2 => d2.allowed) ++ d.allowed :: ds2.map (fun d2 => d2.allowed) := by
        rw [← hmap0, hsplit]
        simp
      have hsp := fullFrom_split L (t :: ts2).length 0
        (ds1.map (fun d2 => d2.allowed)) (ds2.map (fun d2 => d2.allowed)) d.allowed hm2
      exact hsp.trans (decide_eq_false (by push_cast; omega))

/-- C1 witness: on the local path with limit 1 and window 60, the calls
at t=0 and t=1 admit at most one request. -/
theorem memory_admission_ceiling_witness :
    (countTrue ((((runMem [] "k" 1 60 [0, 1]).getD ([], [])).1).map
      (fun d => d.allowed)) : Int) ≤ 1 := by
  obtain ⟨ds, mf, hrun, hcount, hpos⟩ :=
    memory_admission_ceiling "k" 1 60 0 [0, 1] (by decide) (by decide) (by decide)
  rw [hrun]
  simpa using hcount

end RateLimiter
